import Mathlib

/-!
Verification of the cursor-pagination and comment-threading core of the
repository (content-access layer: `getPosts`, `getMyPosts`,
`getThreadedComments`, and the cursor encoding).

The TypeScript source is shallowly embedded:

* a posts-table row becomes `Post`; timestamps (`created_at`,
  `updated_at`) and row ids (UUIDs) are modelled as `Nat`, which is
  order-isomorphic to the linear orders the store compares them with;
* the PostgREST query built by `getPosts` / `getMyPosts`
  (`.eq`, `.order`, `.limit`, `.or` cursor filter) becomes the record
  `IssuedQuery`, and `runQuery` gives its semantics over a table
  snapshot `db : List Post`, where `db` is taken in the row order the
  store would return for the ORDER BY of the query (sortedness of `db`
  is an explicit hypothesis of the theorems that need it);
* the `if (error)` branch of each action is modelled by a
  `storeError : Bool` parameter;
* the cursor string `t_id` and its `split` decoding are modelled over
  `List Char`.
-/

/-- Post status, from the `status` column (`draft` / `published`). -/
inductive Status where
  | draft : Status
  | published : Status
deriving DecidableEq, Repr

/-- A row of the `posts` table; only the columns the pagination core
touches are kept.  `created_at`, `updated_at` and `id` are abstracted
to `Nat`, preserving the linear orders the store compares them in. -/
structure Post where
  id : Nat
  author_id : Nat
  status : Status
  created_at : Nat
  updated_at : Nat
deriving DecidableEq, Repr

/-- The `PaginatedResponse<T>` shape returned by `getPosts` and
`getMyPosts`: the page rows, the optional next cursor (already in its
decoded `(timestamp, id)` form; the string form is treated separately
by the cursor-encoding development below), and the `hasMore` flag. -/
structure PaginatedResponse where
  data : List Post
  nextCursor : Option (Nat × Nat)
  hasMore : Bool
deriving DecidableEq, Repr

/-- The PostgREST query built by `getPosts` / `getMyPosts` before it is
sent to the store: equality filters, the ORDER BY list (column name
with an `ascending` flag, so `false` means DESC), the row count of
`.limit`, and the `.or(...)` cursor filter as its
`(column, timestamp, id)` payload. -/
structure IssuedQuery where
  statusEq : Option Status
  authorEq : Option Nat
  orderBy : List (String × Bool)
  limitCount : Nat
  cursorOr : Option (String × Nat × Nat)
deriving DecidableEq, Repr

/-- Value of a named timestamp column of a row; used to interpret the
`.or(...)` cursor filter, which names either `created_at` or
`updated_at`. -/
def colValue (name : String) (p : Post) : Nat :=
  match name with
  | "updated_at" => p.updated_at
  | _ => p.created_at

/-- Row predicate denoted by the filters of an `IssuedQuery`: the
conjunction of the `.eq` filters and of the `.or` cursor filter
`col.lt.cd,and(col.eq.cd,id.lt.ci)`. -/
def rowFilter (q : IssuedQuery) (p : Post) : Bool :=
  (match q.statusEq with
   | none => true
   | some s => p.status == s) &&
  (match q.authorEq with
   | none => true
   | some a => p.author_id == a) &&
  (match q.cursorOr with
   | none => true
   | some (c, cd, ci) => colValue c p < cd || (colValue c p == cd && p.id < ci))

/-- The store executing a query over the table snapshot `db`: keep the
rows passing every filter (in the order of `db`, which realizes the
ORDER BY of the query) and return at most `limitCount` of them. -/
def runQuery (db : List Post) (q : IssuedQuery) : List Post :=
  (db.filter (rowFilter q)).take q.limitCount

/-- The query `getPosts` builds: `.eq` on status published,
`.order` on `created_at` with ascending false, `.limit(limit + 1)`,
and for a supplied cursor the `.or` filter on `created_at`. -/
def buildPostsQuery (cursor : Option (Nat × Nat)) (limit : Nat) : IssuedQuery :=
  { statusEq := some .published
    authorEq := none
    orderBy := [("created_at", false)]
    limitCount := limit + 1
    cursorOr := cursor.map (fun c => ("created_at", c.1, c.2)) }

/-- The query `getMyPosts` builds: `.eq` on `author_id`,
`.order` on `updated_at` with ascending false, `.limit(limit + 1)`,
and for a supplied cursor the `.or` filter on `updated_at`. -/
def buildMyPostsQuery (userId : Nat) (cursor : Option (Nat × Nat)) (limit : Nat) :
    IssuedQuery :=
  { statusEq := none
    authorEq := some userId
    orderBy := [("updated_at", false)]
    limitCount := limit + 1
    cursorOr := cursor.map (fun c => ("updated_at", c.1, c.2)) }

/-- The page-shaping tail shared by `getPosts` and `getMyPosts`:
`hasMore = data.length > limit`, `posts = hasMore ? data.slice(0, limit)
: data`, and, when `hasMore` and `posts` is nonempty, the next cursor
built from the order-column value and id of the last kept row
(`posts.getLast? = none` exactly when `posts.length > 0` fails, so the
`map` reproduces the `hasMore && posts.length > 0` guard). -/
def shapePage (col : Post → Nat) (data : List Post) (limit : Nat) : PaginatedResponse :=
  { data := if limit < data.length then data.take limit else data
    nextCursor :=
      if limit < data.length then
        ((data.take limit).getLast?).map (fun last => (col last, last.id))
      else none
    hasMore := decide (limit < data.length) }

/-- `getPosts`: build the published-feed query, run it against the
store, and shape the page; a store error yields the empty page.
`storeError = true` models the `if (error)` branch. -/
def getPosts (db : List Post) (storeError : Bool) (cursor : Option (Nat × Nat))
    (limit : Nat) : PaginatedResponse :=
  if storeError then { data := [], nextCursor := none, hasMore := false }
  else shapePage (fun p => p.created_at) (runQuery db (buildPostsQuery cursor limit)) limit

/-- `getMyPosts`: return the empty page when unauthenticated
(`auth = none`), otherwise run the author-scoped query ordered by
`updated_at` and shape the page; a store error yields the empty page. -/
def getMyPosts (auth : Option Nat) (db : List Post) (storeError : Bool)
    (cursor : Option (Nat × Nat)) (limit : Nat) : PaginatedResponse :=
  match auth with
  | none => { data := [], nextCursor := none, hasMore := false }
  | some uid =>
    if storeError then { data := [], nextCursor := none, hasMore := false }
    else shapePage (fun p => p.updated_at) (runQuery db (buildMyPostsQuery uid cursor limit)) limit

/-- Number of posts-table queries a `getMyPosts` call issues, read off
its control flow: the unauthenticated early return happens before the
store client is used, so it issues none; otherwise exactly one page
query is issued. -/
def getMyPostsQueryCount (auth : Option Nat) : Nat :=
  match auth with
  | none => 0
  | some _ => 1

/-- The caller-side pagination loop of the spec: call `fetch` with the
current cursor and, while `hasMore`, continue with the returned
`nextCursor`, concatenating the pages.  `fuel` bounds the number of
calls so the loop is total; the theorems show any `fuel` larger than
the dataset suffices. -/
def paginateAll (fetch : Option (Nat × Nat) → PaginatedResponse) :
    Option (Nat × Nat) → Nat → List Post
  | _, 0 => []
  | cursor, fuel + 1 =>
    let resp := fetch cursor
    if resp.hasMore then resp.data ++ paginateAll fetch resp.nextCursor fuel
    else resp.data

/-- A row of the `comments` table; only the columns the tree builder
touches are kept (`id`, `parent_comment_id`), plus `post_id`,
`author_id` and `created_at` for completeness of the record. -/
structure Comment where
  id : Nat
  post_id : Nat
  author_id : Nat
  parent_comment_id : Option Nat
  created_at : Nat
deriving DecidableEq, Repr

/-- `CommentThread`: a comment together with its ordered replies. -/
inductive CommentThread where
  | mk (comment : Comment) (replies : List CommentThread)

/-- The comment stored at the root of a thread node. -/
def CommentThread.comment : CommentThread → Comment
  | .mk c _ => c

/-- The replies list of a thread node. -/
def CommentThread.replies : CommentThread → List CommentThread
  | .mk _ r => r

/-- The comments whose `parent_comment_id` names `c`; in input order,
exactly the order in which the second pass of the source pushes them
onto the reply array of `c`. -/
def childrenOf (comments : List Comment) (c : Comment) : List Comment :=
  comments.filter (fun y => y.parent_comment_id == some c.id)

/-- Whether the second pass of `getThreadedComments` treats `c` as a
root: either `parent_comment_id` is unset, or no fetched comment
carries that id (the dangling-parent fallback). -/
def isRoot (comments : List Comment) (c : Comment) : Bool :=
  match c.parent_comment_id with
  | none => true
  | some pid => !(comments.any (fun x => x.id == pid))

/-- The thread node the two-pass map-and-mutate construction of the
source leaves for `c` once both passes are done: its replies are the
nodes of its children in input order, recursively.  `fuel` makes the
unfolding total; since every node the source ever reaches from a root
sits at depth below the number of comments, `fuel = comments.length`
(as used by `getThreadedComments`) reproduces the source exactly for
inputs with pairwise-distinct ids. -/
def buildNode (comments : List Comment) : Nat → Comment → CommentThread
  | 0, c => .mk c []
  | fuel + 1, c => .mk c ((childrenOf comments c).map (buildNode comments fuel))

/-- `getThreadedComments`, applied to the flat comment list the source
fetches with `getComments`: the forest of the root comments in input
order, each carrying its nested replies. -/
def getThreadedComments (comments : List Comment) : List CommentThread :=
  (comments.filter (isRoot comments)).map (buildNode comments comments.length)

mutual

/-- Number of nodes of a thread: the node itself plus, recursively,
all of its replies. -/
def threadSize : CommentThread → Nat
  | .mk _ replies => 1 + threadsSize replies

/-- Total node count of a list of threads. -/
def threadsSize : List CommentThread → Nat
  | [] => 0
  | t :: ts => threadSize t + threadsSize ts

end

/-- Total number of nodes across a forest. -/
def forestSize (forest : List CommentThread) : Nat :=
  (forest.map threadSize).sum

/-- The `t_id` cursor string produced by the template literal of the
source, over `List Char`. -/
def encodeCursor (ts id : List Char) : List Char :=
  ts ++ '_' :: id

/-- JavaScript `s.split(sep)` over `List Char`: the (always nonempty)
list of the separator-free chunks of `s`. -/
def splitOnSep (sep : Char) : List Char → List (List Char)
  | [] => [[]]
  | c :: rest =>
    if c = sep then [] :: splitOnSep sep rest
    else
      match splitOnSep sep rest with
      | [] => [[c]]
      | s :: tail => (c :: s) :: tail

/-- The destructuring of the split result in the source
(cursorDate and cursorId from the split on the separator): the first two chunks of the split, `none` standing for
the `undefined` a missing second chunk would produce. -/
def decodeCursor (s : List Char) : Option (List Char × List Char) :=
  match splitOnSep '_' s with
  | d :: i :: _ => some (d, i)
  | _ => none

/-- The decoded-cursor row filter of the source in isolation: keep `p`
when `(col p, p.id)` is strictly below the cursor pair under the
`col < cd OR (col = cd AND id < ci)` tie-break ordering; no cursor
keeps every row. -/
def cursorOk (col : Post → Nat) (cursor : Option (Nat × Nat)) (p : Post) : Bool :=
  match cursor with
  | none => true
  | some c => col p < c.1 || (col p == c.1 && p.id < c.2)

/-- Strict lexicographic order on `(timestamp, id)` pairs — the
tie-break ordering of the spec. -/
def keyPairLt (a b : Nat × Nat) : Prop :=
  a.1 < b.1 ∨ (a.1 = b.1 ∧ a.2 < b.2)

/-- The `(orderColumn value, id)` key of a row. -/
def postKey (col : Post → Nat) (p : Post) : Nat × Nat :=
  (col p, p.id)

instance (a b : Nat × Nat) : Decidable (keyPairLt a b) := by
  unfold keyPairLt
  infer_instance

/-- Every sibling list of the forest appears in the relative order of
the input list: the replies of each node, read as comments, form a
subsequence of `comments`, recursively. -/
inductive OrderedForest (comments : List Comment) : CommentThread → Prop
  | mk (c : Comment) (replies : List CommentThread) :
      (replies.map CommentThread.comment).Sublist comments →
      (∀ t ∈ replies, OrderedForest comments t) →
      OrderedForest comments (.mk c replies)

/-- Sample published post: id 1, timestamps 5. -/
def pA : Post := ⟨1, 0, .published, 5, 5⟩

/-- Sample published post tying with `pA` on both timestamps: id 2. -/
def pB : Post := ⟨2, 0, .published, 5, 5⟩

/-- Sample published post with lower timestamps: id 3. -/
def pC : Post := ⟨3, 0, .published, 3, 3⟩

theorem colValue_created (p : Post) : colValue "created_at" p = p.created_at := rfl

theorem colValue_updated (p : Post) : colValue "updated_at" p = p.updated_at := rfl

/-- Claim C8: a store error makes `getPosts` and `getMyPosts` return
exactly the empty page `{ data: [], nextCursor: null, hasMore: false }`;
being plain total functions, they propagate nothing to the caller. -/
theorem storeError_yields_empty_page :
    ∀ (db : List Post) (cursor : Option (Nat × Nat)) (limit uid : Nat),
      getPosts db true cursor limit = ⟨[], none, false⟩ ∧
      getMyPosts (some uid) db true cursor limit = ⟨[], none, false⟩ :=
  fun _ _ _ _ => ⟨rfl, rfl⟩

/-- Claim C10: with no authenticated user, `getMyPosts` returns the
empty page for every store state, error flag, cursor and limit, and
its control flow issues zero queries to the content store. -/
theorem getMyPosts_unauthenticated_empty :
    ∀ (db : List Post) (storeError : Bool) (cursor : Option (Nat × Nat)) (limit : Nat),
      getMyPosts none db storeError cursor limit = ⟨[], none, false⟩ ∧
      getMyPostsQueryCount none = 0 :=
  fun _ _ _ _ => ⟨rfl, rfl⟩

/-- Claim C2, counterexample: the issued queries order by the single
timestamp column only — the ORDER BY list of the built query is not
the claimed two-column `(orderColumn DESC, id DESC)` list, already at
cursor `none` and the default limit 10. -/
theorem query_order_missing_id_tiebreak :
    ¬((buildPostsQuery none 10).orderBy = [("created_at", false), ("id", false)] ∧
      (buildMyPostsQuery 0 none 10).orderBy = [("updated_at", false), ("id", false)]) := by
  decide

/-- Claim C2, amended: every `getPosts` query orders by
`created_at DESC` alone (and `getMyPosts` by `updated_at DESC` alone),
requests `limit + 1` rows, and, when a cursor is supplied, filters to
rows strictly below the decoded `(timestamp, id)` pair under the
`orderColumn < cd OR (orderColumn = cd AND id < ci)` tie-break. -/
theorem query_contract :
    ∀ (cursor : Option (Nat × Nat)) (limit uid : Nat),
      (buildPostsQuery cursor limit).orderBy = [("created_at", false)] ∧
      (buildPostsQuery cursor limit).limitCount = limit + 1 ∧
      (buildMyPostsQuery uid cursor limit).orderBy = [("updated_at", false)] ∧
      (buildMyPostsQuery uid cursor limit).limitCount = limit + 1 ∧
      (∀ cd ci p, rowFilter (buildPostsQuery (some (cd, ci)) limit) p = true ↔
        p.status = Status.published ∧
          (p.created_at < cd ∨ (p.created_at = cd ∧ p.id < ci))) ∧
      (∀ cd ci p, rowFilter (buildMyPostsQuery uid (some (cd, ci)) limit) p = true ↔
        p.author_id = uid ∧
          (p.updated_at < cd ∨ (p.updated_at = cd ∧ p.id < ci))) := by
  intro cursor limit uid
  refine ⟨rfl, rfl, rfl, rfl, ?_, ?_⟩ <;>
    · intro cd ci p
      simp [rowFilter, buildPostsQuery, buildMyPostsQuery, colValue_created, colValue_updated]

theorem splitOnSep_cons (sep c : Char) (rest : List Char) :
    splitOnSep sep (c :: rest) =
      if c = sep then [] :: splitOnSep sep rest
      else
        match splitOnSep sep rest with
        | [] => [[c]]
        | s :: tail => (c :: s) :: tail := by
  rfl

theorem splitOnSep_of_not_mem (sep : Char) (l : List Char) (h : sep ∉ l) :
    splitOnSep sep l = [l] := by
  induction l with
  | nil => rfl
  | cons c rest ih =>
    have hc : c ≠ sep := fun e => h (e ▸ List.mem_cons_self c rest)
    have hr : sep ∉ rest := fun m => h (List.mem_cons_of_mem c m)
    rw [splitOnSep_cons, ih hr]
    simp [hc]

theorem splitOnSep_append_sep (sep : Char) (t i : List Char) (h : sep ∉ t) :
    splitOnSep sep (t ++ sep :: i) = t :: splitOnSep sep i := by
  induction t with
  | nil =>
    show splitOnSep sep (sep :: i) = [] :: splitOnSep sep i
    rw [splitOnSep_cons]
    simp
  | cons c t ih =>
    have hc : c ≠ sep := fun e => h (e ▸ List.mem_cons_self c t)
    have ht : sep ∉ t := fun m => h (List.mem_cons_of_mem c m)
    show splitOnSep sep (c :: (t ++ sep :: i)) = (c :: t) :: splitOnSep sep i
    rw [splitOnSep_cons, ih ht]
    simp [hc]

/-- Claim C9: decoding the encoded cursor `t_i` by splitting on the
separator recovers exactly the pair `(t, i)` whenever neither
component contains the separator character. -/
theorem decodeCursor_encodeCursor :
    ∀ (t i : List Char), '_' ∉ t → '_' ∉ i →
      decodeCursor (encodeCursor t i) = some (t, i) := by
  intro t i ht hi
  unfold decodeCursor encodeCursor
  rw [splitOnSep_append_sep '_' t i ht, splitOnSep_of_not_mem '_' i hi]

/-- Witness for C9 at a concrete underscore-free timestamp and id. -/
theorem decodeCursor_encodeCursor_witness :
    ('_' ∉ ['2', '0'] ∧ '_' ∉ ['a', 'b']) ∧
      decodeCursor (encodeCursor ['2', '0'] ['a', 'b']) = some (['2', '0'], ['a', 'b']) :=
  ⟨⟨by decide, by decide⟩,
    decodeCursor_encodeCursor ['2', '0'] ['a', 'b'] (by decide) (by decide)⟩

theorem getPosts_run (db : List Post) (cursor : Option (Nat × Nat)) (limit : Nat) :
    getPosts db false cursor limit =
      shapePage (fun p => p.created_at) (runQuery db (buildPostsQuery cursor limit)) limit :=
  rfl

theorem getMyPosts_run (uid : Nat) (db : List Post) (cursor : Option (Nat × Nat))
    (limit : Nat) :
    getMyPosts (some uid) db false cursor limit =
      shapePage (fun p => p.updated_at) (runQuery db (buildMyPostsQuery uid cursor limit)) limit :=
  rfl

theorem shapePage_length_le (col : Post → Nat) (data : List Post) (limit : Nat) :
    (shapePage col data limit).data.length ≤ limit := by
  by_cases h : limit < data.length
  · simp [shapePage, h]
  · simp [shapePage, h]
    omega

theorem shapePage_take_nonempty (data : List Post) (limit : Nat) (h1 : 1 ≤ limit)
    (h : limit < data.length) : ∃ last, (data.take limit).getLast? = some last := by
  cases hg : (data.take limit).getLast? with
  | none =>
    exfalso
    have hnil := List.getLast?_eq_none_iff.mp hg
    have hlen := congrArg List.length hnil
    rw [List.length_take] at hlen
    simp only [List.length_nil] at hlen
    omega
  | some a => exact ⟨a, rfl⟩

theorem shapePage_spec (col : Post → Nat) (data : List Post) (limit : Nat) (h1 : 1 ≤ limit) :
    (limit < data.length →
       (shapePage col data limit).data = data.take limit ∧
       (shapePage col data limit).hasMore = true ∧
       ∃ last, (data.take limit).getLast? = some last ∧
         (shapePage col data limit).nextCursor = some (col last, last.id)) ∧
    (¬limit < data.length → shapePage col data limit = ⟨data, none, false⟩) := by
  constructor
  · intro h
    obtain ⟨last, hl⟩ := shapePage_take_nonempty data limit h1 h
    exact ⟨by simp [shapePage, h], by simp [shapePage, h], last, hl, by simp [shapePage, h, hl]⟩
  · intro h
    have hd : decide (limit < data.length) = false := decide_eq_false h
    simp [shapePage, if_neg h, hd]

theorem shapePage_cursor_iff (col : Post → Nat) (data : List Post) (limit : Nat)
    (h1 : 1 ≤ limit) :
    ((shapePage col data limit).nextCursor = none ↔
      (shapePage col data limit).hasMore = false) := by
  by_cases h : limit < data.length
  · obtain ⟨last, hl⟩ := shapePage_take_nonempty data limit h1 h
    simp [shapePage, h, hl]
  · have hd : decide (limit < data.length) = false := decide_eq_false h
    simp [shapePage, if_neg h, hd]

/-- Claim C3, counterexample: at requested page size 0 with one
matching row, the query returns more rows than the limit (premise of
the truncation case) and `hasMore` is set, yet `nextCursor` is `null`
and is not the encoding of any last returned row — there is none,
since the returned page is empty. -/
theorem page_shaping_limit_zero_counterexample :
    0 < (runQuery [pA] (buildPostsQuery none 0)).length ∧
    (getPosts [pA] false none 0).hasMore = true ∧
    ¬∃ last : Post, ((getPosts [pA] false none 0).data).getLast? = some last ∧
        (getPosts [pA] false none 0).nextCursor = some (last.created_at, last.id) := by
  refine ⟨by decide, by decide, ?_⟩
  rintro ⟨last, h1, -⟩
  have hd : (getPosts [pA] false none 0).data = [] := by decide
  rw [hd] at h1
  simp at h1

/-- Claim C3, amended (page size at least 1): if the query returns
more than `limit` rows, the page is the first `limit` rows with
`hasMore = true` and `nextCursor` the `(orderColumn, id)` key of the
last returned row; otherwise the page is all rows with
`hasMore = false` and `nextCursor = null`; for `getPosts` and
`getMyPosts` alike. -/
theorem page_shaping (db : List Post) (cursor : Option (Nat × Nat)) (limit uid : Nat)
    (h1 : 1 ≤ limit) :
    ((limit < (runQuery db (buildPostsQuery cursor limit)).length →
        (getPosts db false cursor limit).data =
          (runQuery db (buildPostsQuery cursor limit)).take limit ∧
        (getPosts db false cursor limit).hasMore = true ∧
        ∃ last, ((runQuery db (buildPostsQuery cursor limit)).take limit).getLast? = some last ∧
          (getPosts db false cursor limit).nextCursor = some (last.created_at, last.id)) ∧
      (¬limit < (runQuery db (buildPostsQuery cursor limit)).length →
        getPosts db false cursor limit = ⟨runQuery db (buildPostsQuery cursor limit), none, false⟩)) ∧
    ((limit < (runQuery db (buildMyPostsQuery uid cursor limit)).length →
        (getMyPosts (some uid) db false cursor limit).data =
          (runQuery db (buildMyPostsQuery uid cursor limit)).take limit ∧
        (getMyPosts (some uid) db false cursor limit).hasMore = true ∧
        ∃ last, ((runQuery db (buildMyPostsQuery uid cursor limit)).take limit).getLast? = some last ∧
          (getMyPosts (some uid) db false cursor limit).nextCursor = some (last.updated_at, last.id)) ∧
      (¬limit < (runQuery db (buildMyPostsQuery uid cursor limit)).length →
        getMyPosts (some uid) db false cursor limit =
          ⟨runQuery db (buildMyPostsQuery uid cursor limit), none, false⟩)) := by
  rw [getPosts_run, getMyPosts_run]
  exact ⟨shapePage_spec (fun p => p.created_at) _ limit h1,
    shapePage_spec (fun p => p.updated_at) _ limit h1⟩

/-- Witness for the amended C3 at a two-row store with page size 1:
the truncation case fires and the cursor encodes the last returned
row. -/
theorem page_shaping_witness :
    (getPosts [pA, pC] false none 1).data =
      (runQuery [pA, pC] (buildPostsQuery none 1)).take 1 ∧
    (getPosts [pA, pC] false none 1).hasMore = true ∧
    ∃ last, ((runQuery [pA, pC] (buildPostsQuery none 1)).take 1).getLast? = some last ∧
      (getPosts [pA, pC] false none 1).nextCursor = some (last.created_at, last.id) :=
  (page_shaping [pA, pC] none 1 0 (by decide)).1.1 (by decide)

/-- Claim C4, counterexample: at requested page size 0 with one
matching row, `hasMore` is `true` while `nextCursor` is `null`, so
the claimed equivalence fails. -/
theorem paginated_invariant_counterexample :
    ¬(((getPosts [pA] false none 0).nextCursor = none) ↔
      ((getPosts [pA] false none 0).hasMore = false)) := by
  decide

/-- Claim C4, amended (the `nextCursor = null ↔ ¬hasMore` equivalence
restricted to page sizes of at least 1; the length bound holds for
every limit): for every store state, error flag, cursor, limit and
authentication state, the returned page never exceeds the requested
size, and with `1 ≤ limit` the cursor is `null` exactly when
`hasMore` is false. -/
theorem paginated_response_invariant :
    (∀ (db : List Post) (storeError : Bool) (cursor : Option (Nat × Nat))
        (limit : Nat) (auth : Option Nat),
      (getPosts db storeError cursor limit).data.length ≤ limit ∧
      (getMyPosts auth db storeError cursor limit).data.length ≤ limit) ∧
    (∀ (db : List Post) (storeError : Bool) (cursor : Option (Nat × Nat))
        (limit : Nat) (auth : Option Nat), 1 ≤ limit →
      ((getPosts db storeError cursor limit).nextCursor = none ↔
        (getPosts db storeError cursor limit).hasMore = false) ∧
      ((getMyPosts auth db storeError cursor limit).nextCursor = none ↔
        (getMyPosts auth db storeError cursor limit).hasMore = false)) := by
  constructor
  · intro db storeError cursor limit auth
    constructor
    · cases storeError with
      | false => exact shapePage_length_le _ _ _
      | true => simp [getPosts]
    · cases auth with
      | none => simp [getMyPosts]
      | some uid =>
        cases storeError with
        | false => exact shapePage_length_le _ _ _
        | true => simp [getMyPosts]
  · intro db storeError cursor limit auth h1
    constructor
    · cases storeError with
      | false => exact shapePage_cursor_iff _ _ _ h1
      | true => simp [getPosts]
    · cases auth with
      | none => simp [getMyPosts]
      | some uid =>
        cases storeError with
        | false => exact shapePage_cursor_iff _ _ _ h1
        | true => simp [getMyPosts]

/-- Witness for the amended C4 at a concrete store and page size 1. -/
theorem paginated_response_invariant_witness :
    ((getPosts [pA, pC] false none 1).nextCursor = none ↔
      (getPosts [pA, pC] false none 1).hasMore = false) ∧
    ((getMyPosts (some 0) [pA, pC] false none 1).nextCursor = none ↔
      (getMyPosts (some 0) [pA, pC] false none 1).hasMore = false) :=
  paginated_response_invariant.2 [pA, pC] false none 1 (some 0) (by decide)

/-- Claim C1, counterexample: two published rows tie on `created_at`;
the store order `[id 1, id 2]` realizes the single-column
`ORDER BY created_at DESC` of the issued query (first conjunct), yet
paginating with page size 1 yields only one of the two rows — the
cursor filter `id < 1` excludes the tied row with the larger id. -/
theorem pagination_exhaustive_counterexample :
    List.Pairwise (fun a b : Post => b.created_at ≤ a.created_at) [pA, pB] ∧
    (∀ p ∈ [pA, pB], p.status = Status.published) ∧
    (paginateAll (fun c => getPosts [pA, pB] false c 1) none 3).length ≠
      ([pA, pB] : List Post).length := by
  decide

theorem keyPairLt_trans {a b c : Nat × Nat} (h : keyPairLt a b) (g : keyPairLt b c) :
    keyPairLt a c := by
  simp only [keyPairLt] at *
  omega

theorem keyPairLt_irrefl (a : Nat × Nat) : ¬keyPairLt a a := by
  simp only [keyPairLt]
  omega

theorem cursorOk_some_iff (col : Post → Nat) (c : Nat × Nat) (p : Post) :
    cursorOk col (some c) p = true ↔ keyPairLt (postKey col p) c := by
  simp [cursorOk, keyPairLt, postKey]

theorem cursorOk_none (col : Post → Nat) (p : Post) : cursorOk col none p = true :=
  rfl

theorem pairwise_getLast {α : Type} {R : α → α → Prop} {l : List α} {a : α}
    (hp : l.Pairwise R) (hl : l.getLast? = some a) : ∀ x ∈ l, x = a ∨ R x a := by
  intro x hx
  have hne : l ≠ [] := by
    rintro rfl
    simp at hl
  have ha : l.getLast hne = a := by
    rw [List.getLast?_eq_getLast l hne] at hl
    exact Option.some_inj.mp hl
  have hsplit := List.dropLast_append_getLast hne
  rw [← hsplit] at hp hx
  rcases List.mem_append.mp hx with h1 | h2
  · right
    have := (List.pairwise_append.mp hp).2.2 x h1 (l.getLast hne)
      (List.mem_singleton.mpr rfl)
    rwa [ha] at this
  · left
    rw [List.mem_singleton.mp h2, ha]

theorem filter_next_cursor (col : Post → Nat) (rows : List Post) (limit : Nat)
    (cursor : Option (Nat × Nat))
    (hsort : rows.Pairwise (fun a b => keyPairLt (postKey col b) (postKey col a)))
    (last : Post)
    (hlast : ((rows.filter (cursorOk col cursor)).take limit).getLast? = some last) :
    rows.filter (cursorOk col (some (postKey col last))) =
      (rows.filter (cursorOk col cursor)).drop limit := by
  have hsort_rs : (rows.filter (cursorOk col cursor)).Pairwise
      (fun a b => keyPairLt (postKey col b) (postKey col a)) :=
    List.Pairwise.sublist (List.filter_sublist rows) hsort
  have hlast_take : last ∈ (rows.filter (cursorOk col cursor)).take limit :=
    List.mem_of_mem_getLast? (by simp [hlast])
  have hlast_rs : last ∈ rows.filter (cursorOk col cursor) :=
    (List.take_sublist limit _).subset hlast_take
  have step2 : rows.filter (cursorOk col (some (postKey col last))) =
      (rows.filter (cursorOk col cursor)).filter (cursorOk col (some (postKey col last))) := by
    rw [List.filter_filter]
    apply List.filter_congr
    intro p _
    cases hck : cursorOk col (some (postKey col last)) p with
    | false => simp [hck]
    | true =>
      have hc : cursorOk col cursor p = true := by
        cases cursor with
        | none => rfl
        | some c =>
          have h1 := (cursorOk_some_iff col (postKey col last) p).mp hck
          have h2 := (cursorOk_some_iff col c last).mp (List.of_mem_filter hlast_rs)
          exact (cursorOk_some_iff col c p).mpr (keyPairLt_trans h1 h2)
      simp [hck, hc]
  rw [step2]
  have hdecomp : (rows.filter (cursorOk col cursor)).take limit ++
      (rows.filter (cursorOk col cursor)).drop limit = rows.filter (cursorOk col cursor) :=
    List.take_append_drop limit _
  have hpair := List.pairwise_append.mp (hdecomp ▸ hsort_rs)
  have htake_nil : ((rows.filter (cursorOk col cursor)).take limit).filter
      (cursorOk col (some (postKey col last))) = [] := by
    apply List.filter_eq_nil_iff.mpr
    intro x hx
    have htp : ((rows.filter (cursorOk col cursor)).take limit).Pairwise
        (fun a b => keyPairLt (postKey col b) (postKey col a)) :=
      List.Pairwise.sublist (List.take_sublist limit _) hsort_rs
    rcases pairwise_getLast htp hlast x hx with rfl | hgt
    · simp [cursorOk_some_iff]
      exact keyPairLt_irrefl (postKey col x)
    · simp [cursorOk_some_iff]
      intro hlt
      exact absurd (keyPairLt_trans hlt hgt) (keyPairLt_irrefl (postKey col x))
  have hdrop_self : ((rows.filter (cursorOk col cursor)).drop limit).filter
      (cursorOk col (some (postKey col last))) =
      (rows.filter (cursorOk col cursor)).drop limit := by
    apply List.filter_eq_self.mpr
    intro y hy
    exact (cursorOk_some_iff col (postKey col last) y).mpr (hpair.2.2 last hlast_take y hy)
  conv_lhs => rw [← hdecomp]
  rw [List.filter_append, htake_nil, hdrop_self]
  simp

theorem shapePage_data (col : Post → Nat) (data : List Post) (limit : Nat) :
    (shapePage col data limit).data =
      if limit < data.length then data.take limit else data :=
  rfl

theorem shapePage_nextCursor (col : Post → Nat) (data : List Post) (limit : Nat) :
    (shapePage col data limit).nextCursor =
      if limit < data.length then
        ((data.take limit).getLast?).map (fun last => (col last, last.id))
      else none :=
  rfl

theorem shapePage_hasMore (col : Post → Nat) (data : List Post) (limit : Nat) :
    (shapePage col data limit).hasMore = decide (limit < data.length) :=
  rfl

theorem paginateAll_succ (fetch : Option (Nat × Nat) → PaginatedResponse)
    (cursor : Option (Nat × Nat)) (fuel : Nat) :
    paginateAll fetch cursor (fuel + 1) =
      if (fetch cursor).hasMore then
        (fetch cursor).data ++ paginateAll fetch (fetch cursor).nextCursor fuel
      else (fetch cursor).data :=
  rfl

theorem paginateAll_collect (col : Post → Nat) (rows : List Post) (limit : Nat)
    (h1 : 1 ≤ limit)
    (hsort : rows.Pairwise (fun a b => keyPairLt (postKey col b) (postKey col a))) :
    ∀ (fuel : Nat) (cursor : Option (Nat × Nat)),
      (rows.filter (cursorOk col cursor)).length < fuel →
      paginateAll
        (fun c => shapePage col ((rows.filter (cursorOk col c)).take (limit + 1)) limit)
        cursor fuel = rows.filter (cursorOk col cursor) := by
  intro fuel
  induction fuel with
  | zero => intro cursor h; omega
  | succ fuel ih =>
    intro cursor hlt
    rw [paginateAll_succ]
    by_cases hM : limit < (rows.filter (cursorOk col cursor)).length
    · have hdata_len :
          ((rows.filter (cursorOk col cursor)).take (limit + 1)).length = limit + 1 := by
        rw [List.length_take]
        omega
      have hMdata :
          limit < ((rows.filter (cursorOk col cursor)).take (limit + 1)).length := by
        omega
      have hposts : (((rows.filter (cursorOk col cursor)).take (limit + 1)).take limit) =
          (rows.filter (cursorOk col cursor)).take limit := by
        rw [List.take_take]
        congr 1
        omega
      obtain ⟨last, hlast⟩ := shapePage_take_nonempty _ limit h1 hMdata
      rw [hposts] at hlast
      have hresp_hasMore :
          (shapePage col ((rows.filter (cursorOk col cursor)).take (limit + 1)) limit).hasMore
            = true := by
        rw [shapePage_hasMore, hdata_len]
        exact decide_eq_true (by omega)
      have hresp_data :
          (shapePage col ((rows.filter (cursorOk col cursor)).take (limit + 1)) limit).data
            = (rows.filter (cursorOk col cursor)).take limit := by
        rw [shapePage_data, if_pos hMdata, hposts]
      have hresp_cursor :
          (shapePage col ((rows.filter (cursorOk col cursor)).take (limit + 1)) limit).nextCursor
            = some (postKey col last) := by
        rw [shapePage_nextCursor, if_pos hMdata, hposts, hlast]
        rfl
      simp only [hresp_hasMore, hresp_data, hresp_cursor, if_true]
      have hstep := filter_next_cursor col rows limit cursor hsort last hlast
      have hlen2 : (rows.filter (cursorOk col (some (postKey col last)))).length < fuel := by
        rw [hstep, List.length_drop]
        omega
      rw [ih (some (postKey col last)) hlen2, hstep]
      exact List.take_append_drop limit _
    · have hle : (rows.filter (cursorOk col cursor)).length ≤ limit := by omega
      have hdata : (rows.filter (cursorOk col cursor)).take (limit + 1) =
          rows.filter (cursorOk col cursor) :=
        List.take_of_length_le (by omega)
      have hfalse :
          (shapePage col ((rows.filter (cursorOk col cursor)).take (limit + 1)) limit).hasMore
            = false := by
        rw [shapePage_hasMore, hdata]
        exact decide_eq_false (Nat.not_lt.mpr hle)
      simp only [hfalse, Bool.false_eq_true, if_false]
      rw [shapePage_data, hdata, if_neg (Nat.not_lt.mpr hle)]

theorem runPostsQuery_eq (db : List Post) (c : Option (Nat × Nat)) (limit : Nat) :
    runQuery db (buildPostsQuery c limit) =
      ((db.filter (fun p => p.status == Status.published)).filter
        (cursorOk (fun p => p.created_at) c)).take (limit + 1) := by
  unfold runQuery
  rw [List.filter_filter]
  apply congrArg (fun l => List.take (limit + 1) l)
  apply List.filter_congr
  intro p _
  cases c with
  | none => simp [rowFilter, buildPostsQuery, cursorOk]
  | some cc =>
    simp [rowFilter, buildPostsQuery, cursorOk, colValue_created]
    cases p.status == Status.published <;>
      cases (decide (p.created_at < cc.1) || (p.created_at == cc.1 && decide (p.id < cc.2))) <;>
      simp

theorem runMyPostsQuery_eq (uid : Nat) (db : List Post) (c : Option (Nat × Nat)) (limit : Nat) :
    runQuery db (buildMyPostsQuery uid c limit) =
      ((db.filter (fun p => p.author_id == uid)).filter
        (cursorOk (fun p => p.updated_at) c)).take (limit + 1) := by
  unfold runQuery
  rw [List.filter_filter]
  apply congrArg (fun l => List.take (limit + 1) l)
  apply List.filter_congr
  intro p _
  cases c with
  | none => simp [rowFilter, buildMyPostsQuery, cursorOk]
  | some cc =>
    simp [rowFilter, buildMyPostsQuery, cursorOk, colValue_updated]
    cases p.author_id == uid <;>
      cases (decide (p.updated_at < cc.1) || (p.updated_at == cc.1 && decide (p.id < cc.2))) <;>
      simp

/-- Claim C1, amended (store order fully determined): when the store
returns rows in strictly descending `(orderColumn, id)` order — the
`db` snapshot is `Pairwise`-sorted by strictly decreasing key, which
in particular holds whenever timestamps are pairwise distinct — and
the page size is at least 1, the loop that starts `getPosts` with no
cursor and follows `nextCursor` until `hasMore` is false concatenates
to exactly the dataset: every row exactly once, in that strictly
descending key order (and likewise `getMyPosts` over the rows of the
authenticated author, keyed by `updated_at`). -/
theorem pagination_exhaustive :
    (∀ (db : List Post) (limit fuel : Nat), 1 ≤ limit →
      db.Pairwise (fun a b =>
        keyPairLt (postKey (fun p => p.created_at) b) (postKey (fun p => p.created_at) a)) →
      (∀ p ∈ db, p.status = Status.published) →
      db.length < fuel →
      paginateAll (fun c => getPosts db false c limit) none fuel = db) ∧
    (∀ (uid : Nat) (db : List Post) (limit fuel : Nat), 1 ≤ limit →
      db.Pairwise (fun a b =>
        keyPairLt (postKey (fun p => p.updated_at) b) (postKey (fun p => p.updated_at) a)) →
      (∀ p ∈ db, p.author_id = uid) →
      db.length < fuel →
      paginateAll (fun c => getMyPosts (some uid) db false c limit) none fuel = db) := by
  constructor
  · intro db limit fuel h1 hsort hpub hfuel
    have hbase : db.filter (fun p => p.status == Status.published) = db :=
      List.filter_eq_self.mpr (fun p hp => by simp [hpub p hp])
    have hfetch : (fun c => getPosts db false c limit) =
        (fun c => shapePage (fun p => p.created_at)
          (((db.filter (fun p => p.status == Status.published)).filter
            (cursorOk (fun p => p.created_at) c)).take (limit + 1)) limit) :=
      funext fun c => by rw [getPosts_run, runPostsQuery_eq]
    rw [hfetch]
    have hnone : (db.filter (fun p => p.status == Status.published)).filter
        (cursorOk (fun p => p.created_at) none) =
        db.filter (fun p => p.status == Status.published) :=
      List.filter_eq_self.mpr (fun a _ => rfl)
    have := paginateAll_collect (fun p => p.created_at)
      (db.filter (fun p => p.status == Status.published)) limit h1
      (by rw [hbase]; exact hsort) fuel none (by rw [hnone, hbase]; exact hfuel)
    rw [this, hnone, hbase]
  · intro uid db limit fuel h1 hsort hauth hfuel
    have hbase : db.filter (fun p => p.author_id == uid) = db :=
      List.filter_eq_self.mpr (fun p hp => by simp [hauth p hp])
    have hfetch : (fun c => getMyPosts (some uid) db false c limit) =
        (fun c => shapePage (fun p => p.updated_at)
          (((db.filter (fun p => p.author_id == uid)).filter
            (cursorOk (fun p => p.updated_at) c)).take (limit + 1)) limit) :=
      funext fun c => by rw [getMyPosts_run, runMyPostsQuery_eq]
    rw [hfetch]
    have hnone : (db.filter (fun p => p.author_id == uid)).filter
        (cursorOk (fun p => p.updated_at) none) =
        db.filter (fun p => p.author_id == uid) :=
      List.filter_eq_self.mpr (fun a _ => rfl)
    have := paginateAll_collect (fun p => p.updated_at)
      (db.filter (fun p => p.author_id == uid)) limit h1
      (by rw [hbase]; exact hsort) fuel none (by rw [hnone, hbase]; exact hfuel)
    rw [this, hnone, hbase]

/-- Witness for the amended C1: a two-row dataset with distinct
timestamps, paginated at page size 1, is recovered in full by both
loops. -/
theorem pagination_exhaustive_witness :
    paginateAll (fun c => getPosts [pA, pC] false c 1) none 3 = [pA, pC] ∧
    paginateAll (fun c => getMyPosts (some 0) [pA, pC] false c 1) none 3 = [pA, pC] :=
  ⟨pagination_exhaustive.1 [pA, pC] 1 3 (by decide) (by decide) (by decide) (by decide),
   pagination_exhaustive.2 0 [pA, pC] 1 3 (by decide) (by decide) (by decide) (by decide)⟩

theorem threadsSize_eq_sum (l : List CommentThread) :
    threadsSize l = (l.map threadSize).sum := by
  induction l with
  | nil => rfl
  | cons t ts ih => simp [threadsSize, ih]

theorem buildNode_comment (comments : List Comment) (f : Nat) (c : Comment) :
    (buildNode comments f c).comment = c := by
  cases f <;> rfl

theorem orderedForest_buildNode (comments : List Comment) :
    ∀ (f : Nat) (c : Comment), OrderedForest comments (buildNode comments f c) := by
  intro f
  induction f with
  | zero =>
    intro c
    exact OrderedForest.mk c [] (by simp) (by simp)
  | succ f ih =>
    intro c
    refine OrderedForest.mk c _ ?_ ?_
    · rw [List.map_map]
      have hcomp : (CommentThread.comment ∘ buildNode comments f) = id :=
        funext fun x => buildNode_comment comments f x
      rw [hcomp, List.map_id]
      exact List.filter_sublist comments
    · intro t ht
      rcases List.mem_map.mp ht with ⟨x, _, rfl⟩
      exact ih x

/-- Claim C6: on the fetched flat list (pairwise-distinct ids, as the
primary key of the comments table guarantees), the root sequence of
`getThreadedComments` is a subsequence of the input, and so is every
reply sequence throughout the forest — siblings therefore appear in
exactly the relative order of the input list. -/
theorem sibling_order_preserved (comments : List Comment)
    (_hnodup : (comments.map Comment.id).Nodup) :
    ((getThreadedComments comments).map CommentThread.comment).Sublist comments ∧
    ∀ t ∈ getThreadedComments comments, OrderedForest comments t := by
  constructor
  · rw [getThreadedComments, List.map_map]
    have hcomp : (CommentThread.comment ∘ buildNode comments comments.length) = id :=
      funext fun x => buildNode_comment comments comments.length x
    rw [hcomp, List.map_id]
    exact List.filter_sublist comments
  · intro t ht
    rcases List.mem_map.mp ht with ⟨x, _, rfl⟩
    exact orderedForest_buildNode comments comments.length x

/-- Witness for C6 at a three-comment thread (two roots, one reply). -/
theorem sibling_order_preserved_witness :
    ((getThreadedComments [⟨1, 0, 0, none, 0⟩, ⟨2, 0, 0, none, 1⟩, ⟨3, 0, 0, some 1, 2⟩]).map
      CommentThread.comment).Sublist
        [⟨1, 0, 0, none, 0⟩, ⟨2, 0, 0, none, 1⟩, ⟨3, 0, 0, some 1, 2⟩] ∧
    ∀ t ∈ getThreadedComments [⟨1, 0, 0, none, 0⟩, ⟨2, 0, 0, none, 1⟩, ⟨3, 0, 0, some 1, 2⟩],
      OrderedForest [⟨1, 0, 0, none, 0⟩, ⟨2, 0, 0, none, 1⟩, ⟨3, 0, 0, some 1, 2⟩] t :=
  sibling_order_preserved [⟨1, 0, 0, none, 0⟩, ⟨2, 0, 0, none, 1⟩, ⟨3, 0, 0, some 1, 2⟩]
    (by decide)

/-- Claim C7: a comment whose `parent_comment_id` matches no fetched
comment is promoted to the root sequence — it appears among the
returned roots (and the construction is a total function: it cannot
throw). -/
theorem dangling_parent_promoted (comments : List Comment) (x : Comment) (pid : Nat)
    (_hnodup : (comments.map Comment.id).Nodup)
    (hmem : x ∈ comments) (hpar : x.parent_comment_id = some pid)
    (habsent : ∀ y ∈ comments, y.id ≠ pid) :
    ∃ t ∈ getThreadedComments comments, t.comment = x := by
  have hany : comments.any (fun y => y.id == pid) = false := by
    rw [List.any_eq_false]
    intro y hy
    simp [habsent y hy]
  have hroot : isRoot comments x = true := by
    unfold isRoot
    rw [hpar]
    simp [hany]
  exact ⟨buildNode comments comments.length x,
    List.mem_map_of_mem _ (List.mem_filter.mpr ⟨hmem, hroot⟩),
    buildNode_comment comments comments.length x⟩

/-- Witness for C7: a single comment with a nonexistent parent id is
returned as the unique root. -/
theorem dangling_parent_promoted_witness :
    ∃ t ∈ getThreadedComments [⟨7, 0, 0, some 99, 0⟩], t.comment = ⟨7, 0, 0, some 99, 0⟩ :=
  dangling_parent_promoted [⟨7, 0, 0, some 99, 0⟩] ⟨7, 0, 0, some 99, 0⟩ 99
    (by decide) (by decide) (by decide) (by decide)

/-- Claim C5, counterexample: a single comment naming itself as parent
(storable under the self-referencing foreign key of the schema, though
not reachable through the normal write path) is neither a root nor
reachable from any root, so the returned forest has 0 nodes while the
input has 1. -/
theorem thread_completeness_counterexample :
    forestSize (getThreadedComments [⟨1, 0, 0, some 1, 0⟩]) = 0 ∧
    ([(⟨1, 0, 0, some 1, 0⟩ : Comment)] : List Comment).length = 1 := by
  decide

theorem buildNode_succ (comments : List Comment) (f : Nat) (c : Comment) :
    buildNode comments (f + 1) c =
      .mk c ((childrenOf comments c).map (buildNode comments f)) :=
  rfl

theorem forestSize_append (a b : List CommentThread) :
    forestSize (a ++ b) = forestSize a + forestSize b := by
  simp [forestSize, List.sum_append]

theorem forestSize_cons (t : CommentThread) (ts : List CommentThread) :
    forestSize (t :: ts) = threadSize t + forestSize ts := by
  simp [forestSize]

theorem forestSize_map {α : Type} (g : α → CommentThread) (xs : List α) :
    forestSize (xs.map g) = (xs.map (fun x => threadSize (g x))).sum := by
  rw [forestSize, List.map_map]
  rfl

theorem threadSize_mk (c : Comment) (rs : List CommentThread) :
    threadSize (.mk c rs) = 1 + forestSize rs := by
  rw [threadSize, threadsSize_eq_sum]
  rfl

theorem countP_lt_countP {α : Type} (P Q : α → Bool) :
    ∀ (l : List α), (∀ x ∈ l, P x = true → Q x = true) →
      ∀ y ∈ l, Q y = true → P y = false → l.countP P < l.countP Q := by
  intro l
  induction l with
  | nil =>
    intro _ y hy
    simp at hy
  | cons a t ih =>
    intro himp y hy hQ hP
    rw [List.countP_cons, List.countP_cons]
    have himpt : ∀ x ∈ t, P x = true → Q x = true :=
      fun x hx => himp x (List.mem_cons_of_mem a hx)
    rcases List.mem_cons.mp hy with rfl | hyt
    · have hmono := List.countP_mono_left himpt
      rw [if_pos hQ, if_neg (by simp [hP])]
      omega
    · have hstrict := ih himpt y hyt hQ hP
      have hifs : (if P a = true then 1 else 0) ≤ (if Q a = true then 1 else 0) := by
        by_cases hpa : P a = true
        · rw [if_pos hpa, if_pos (himp a (List.mem_cons_self a t) hpa)]
        · rw [if_neg hpa]
          omega
      omega

theorem buildNode_fuel_stable (l : List Comment) (d : Nat → Nat)
    (hd : ∀ y ∈ l, ∀ x ∈ l, y.parent_comment_id = some x.id → d x.id < d y.id) :
    ∀ (k : Nat) (y : Comment), y ∈ l →
      l.length ≤ l.countP (fun x => decide (d x.id < d y.id)) + k →
      ∀ f g, k ≤ f → k ≤ g → buildNode l f y = buildNode l g y := by
  intro k
  induction k with
  | zero =>
    intro y hy hlen f g _ _
    exfalso
    have hcnt : l.countP (fun x => decide (d x.id < d y.id)) < l.length := by
      rw [List.countP_eq_length_filter]
      exact List.length_filter_lt_length_iff_exists.mpr ⟨y, hy, by simp⟩
    omega
  | succ k ih =>
    intro y hy hlen f g hf hg
    cases f with
    | zero => omega
    | succ f2 =>
      cases g with
      | zero => omega
      | succ g2 =>
        rw [buildNode_succ, buildNode_succ]
        congr 1
        apply List.map_congr_left
        intro z hz
        have hzl : z ∈ l := List.mem_of_mem_filter hz
        have hpz : z.parent_comment_id = some y.id := by
          have := List.of_mem_filter hz
          simpa using this
        have hdz : d y.id < d z.id := hd z hzl y hy hpz
        have hcnt : l.countP (fun x => decide (d x.id < d y.id)) <
            l.countP (fun x => decide (d x.id < d z.id)) := by
          apply countP_lt_countP _ _ l ?_ y hy (by simp [hdz]) (by simp)
          intro x _ hx
          simp at hx ⊢
          omega
        exact ih z hzl (by omega) f2 g2 (by omega) (by omega)

theorem exists_min_rank (d : Nat → Nat) :
    ∀ (l : List Comment), l ≠ [] → ∃ r ∈ l, ∀ x ∈ l, d r.id ≤ d x.id := by
  intro l
  induction l with
  | nil => intro h; exact absurd rfl h
  | cons a t ih =>
    intro _
    cases t with
    | nil =>
      refine ⟨a, List.mem_cons_self a [], ?_⟩
      intro x hx
      rcases List.mem_cons.mp hx with rfl | hx2
      · exact le_rfl
      · simp at hx2
    | cons b t2 =>
      obtain ⟨r, hr, hmin⟩ := ih (by simp)
      by_cases hle : d a.id ≤ d r.id
      · refine ⟨a, List.mem_cons_self a (b :: t2), ?_⟩
        intro x hx
        rcases List.mem_cons.mp hx with rfl | hx2
        · exact le_rfl
        · exact le_trans hle (hmin x hx2)
      · refine ⟨r, List.mem_cons_of_mem a hr, ?_⟩
        intro x hx
        rcases List.mem_cons.mp hx with rfl | hx2
        · omega
        · exact hmin x hx2

theorem isRoot_no_child (l : List Comment) (r : Comment) (hroot : isRoot l r = true) :
    ∀ y ∈ l, r.parent_comment_id ≠ some y.id := by
  intro y hy heq
  unfold isRoot at hroot
  rw [heq] at hroot
  simp at hroot
  exact hroot y hy rfl

theorem childrenOf_erase (la lb : List Comment) (r y : Comment)
    (hnc : r.parent_comment_id ≠ some y.id) :
    childrenOf (la ++ r :: lb) y = childrenOf (la ++ lb) y := by
  unfold childrenOf
  have hfr : (r.parent_comment_id == some y.id) = false := by simp [hnc]
  rw [List.filter_append, List.filter_cons, hfr, List.filter_append]
  simp

theorem buildNode_erase (la lb : List Comment) (r : Comment)
    (hnc : ∀ y ∈ la ++ r :: lb, r.parent_comment_id ≠ some y.id) :
    ∀ (f : Nat) (y : Comment), y ∈ la ++ r :: lb →
      buildNode (la ++ r :: lb) f y = buildNode (la ++ lb) f y := by
  intro f
  induction f with
  | zero => intro y _; rfl
  | succ f2 ih =>
    intro y hy
    rw [buildNode_succ, buildNode_succ, childrenOf_erase la lb r y (hnc y hy)]
    congr 1
    apply List.map_congr_left
    intro z hz
    have hz2 : z ∈ la ++ lb := List.mem_of_mem_filter hz
    have hzS : z ∈ la ++ r :: lb := by
      rcases List.mem_append.mp hz2 with h | h
      · exact List.mem_append_left _ h
      · exact List.mem_append_right _ (List.mem_cons_of_mem r h)
    exact ih z hzS

theorem isRoot_erase (la lb : List Comment) (r : Comment)
    (hnodup : ((la ++ r :: lb).map Comment.id).Nodup) :
    ∀ y, isRoot (la ++ lb) y =
      (isRoot (la ++ r :: lb) y || (y.parent_comment_id == some r.id)) := by
  intro y
  unfold isRoot
  cases hpc : y.parent_comment_id with
  | none => rfl
  | some pid =>
    show (!(la ++ lb).any fun x => x.id == pid) =
      ((!(la ++ r :: lb).any fun x => x.id == pid) || (some pid == some r.id))
    rw [List.any_append, List.any_append, List.any_cons]
    by_cases hpr : pid = r.id
    · have hmid : (r.id :: (la.map Comment.id ++ lb.map Comment.id)).Nodup := by
        rw [List.map_append, List.map_cons] at hnodup
        exact List.nodup_middle.mp hnodup
      have hnm : r.id ∉ la.map Comment.id ++ lb.map Comment.id :=
        (List.nodup_cons.mp hmid).1
      have hla : la.any (fun x => x.id == pid) = false := by
        rw [List.any_eq_false]
        intro x hx
        simp only [beq_iff_eq]
        intro hxe
        refine hnm (List.mem_append_left _ ?_)
        rw [← hpr, ← hxe]
        exact List.mem_map_of_mem Comment.id hx
      have hlbany : lb.any (fun x => x.id == pid) = false := by
        rw [List.any_eq_false]
        intro x hx
        simp only [beq_iff_eq]
        intro hxe
        refine hnm (List.mem_append_right _ ?_)
        rw [← hpr, ← hxe]
        exact List.mem_map_of_mem Comment.id hx
      have hrbeq : (r.id == pid) = true := by simp [hpr]
      have hsome : ((some pid : Option Nat) == some r.id) = true := by simp [hpr]
      rw [hla, hlbany, hrbeq, hsome]
      rfl
    · have hrid : (r.id == pid) = false := by simp [Ne.symm hpr]
      have hsome : ((some pid : Option Nat) == some r.id) = false := by simp [hpr]
      rw [hrid, hsome]
      simp

theorem sum_filter_or {α : Type} (f : α → Nat) (p q : α → Bool) :
    ∀ (l : List α), (∀ x ∈ l, ¬(p x = true ∧ q x = true)) →
      ((l.filter (fun x => p x || q x)).map f).sum =
        ((l.filter p).map f).sum + ((l.filter q).map f).sum := by
  intro l
  induction l with
  | nil => intro _; rfl
  | cons a t ih =>
    intro hdisj
    have ht := ih (fun x hx => hdisj x (List.mem_cons_of_mem a hx))
    cases hpa : p a with
    | false =>
      cases hqa : q a with
      | false =>
        simp only [List.filter_cons, hpa, hqa, Bool.false_or]
        rw [if_neg Bool.false_ne_true, if_neg Bool.false_ne_true, if_neg Bool.false_ne_true]
        exact ht
      | true =>
        simp only [List.filter_cons, hpa, hqa, Bool.false_or]
        rw [if_pos trivial, if_neg Bool.false_ne_true, if_pos trivial]
        simp only [List.map_cons, List.sum_cons]
        rw [ht]
        omega
    | true =>
      cases hqa : q a with
      | false =>
        simp only [List.filter_cons, hpa, hqa, Bool.true_or]
        rw [if_pos trivial, if_pos trivial, if_neg Bool.false_ne_true]
        simp only [List.map_cons, List.sum_cons]
        rw [ht]
        omega
      | true => exact absurd ⟨hpa, hqa⟩ (hdisj a (List.mem_cons_self a t))

theorem forest_complete_aux (d : Nat → Nat) :
    ∀ (n : Nat) (l : List Comment), l.length ≤ n →
      (l.map Comment.id).Nodup →
      (∀ y ∈ l, ∀ x ∈ l, y.parent_comment_id = some x.id → d x.id < d y.id) →
      ∀ fuel, l.length ≤ fuel →
      forestSize ((l.filter (isRoot l)).map (buildNode l fuel)) = l.length := by
  intro n
  induction n with
  | zero =>
    intro l hlen _ _ fuel _
    have hnil : l = [] := List.length_eq_zero.mp (Nat.le_zero.mp hlen)
    subst hnil
    rfl
  | succ n ih =>
    intro l hlen hnodup hd fuel hfuel
    by_cases hln : l = []
    · subst hln
      rfl
    · obtain ⟨r, hrmem, hrmin⟩ := exists_min_rank d l hln
      have hroot_r : isRoot l r = true := by
        unfold isRoot
        cases hpc : r.parent_comment_id with
        | none => rfl
        | some pid =>
          show (!l.any fun x => x.id == pid) = true
          have hany : (l.any fun x => x.id == pid) = false := by
            rw [List.any_eq_false]
            intro x hx
            simp only [beq_iff_eq]
            intro hxe
            have hlt := hd r hrmem x hx (by rw [hpc, hxe])
            have hge := hrmin x hx
            omega
          rw [hany]
          rfl
      have hncS := isRoot_no_child l r hroot_r
      obtain ⟨la, lb, hS⟩ := List.append_of_mem hrmem
      subst hS
      have hrestmem : ∀ z ∈ la ++ lb, z ∈ la ++ r :: lb := by
        intro z hz
        rcases List.mem_append.mp hz with h | h
        · exact List.mem_append_left _ h
        · exact List.mem_append_right _ (List.mem_cons_of_mem r h)
      have hrestsub : (la ++ lb).Sublist (la ++ r :: lb) :=
        List.Sublist.append_left (List.sublist_cons_self r lb) la
      have hnodup2 : ((la ++ lb).map Comment.id).Nodup :=
        List.Nodup.sublist (List.Sublist.map Comment.id hrestsub) hnodup
      have hd2 : ∀ y ∈ la ++ lb, ∀ x ∈ la ++ lb,
          y.parent_comment_id = some x.id → d x.id < d y.id :=
        fun y hy x hx => hd y (hrestmem y hy) x (hrestmem x hx)
      have hlenS : (la ++ r :: lb).length = (la ++ lb).length + 1 := by
        rw [List.length_append, List.length_append, List.length_cons]
        omega
      have hlen2 : (la ++ lb).length ≤ n := by omega
      cases fuel with
      | zero => omega
      | succ f2 =>
        have hf2 : (la ++ lb).length ≤ f2 := by omega
        have hconv : ∀ y ∈ la ++ lb, ∀ f, (la ++ lb).length ≤ f →
            buildNode (la ++ r :: lb) f y = buildNode (la ++ lb) (la ++ lb).length y := by
          intro y hy f hf
          rw [buildNode_erase la lb r hncS f y (hrestmem y hy)]
          exact buildNode_fuel_stable (la ++ lb) d hd2 (la ++ lb).length y hy (by omega)
            f (la ++ lb).length hf le_rfl
        rw [List.filter_append, List.filter_cons, if_pos hroot_r, List.map_append,
          List.map_cons, forestSize_append, forestSize_cons, buildNode_succ, threadSize_mk]
        have hchr : childrenOf (la ++ r :: lb) r = childrenOf (la ++ lb) r :=
          childrenOf_erase la lb r r (hncS r hrmem)
        rw [hchr]
        have hmapA : (la.filter (isRoot (la ++ r :: lb))).map
            (buildNode (la ++ r :: lb) (f2 + 1)) =
            (la.filter (isRoot (la ++ r :: lb))).map
              (buildNode (la ++ lb) (la ++ lb).length) := by
          apply List.map_congr_left
          intro y hy
          exact hconv y (List.mem_append_left lb (List.mem_of_mem_filter hy)) (f2 + 1) (by omega)
        have hmapB : (lb.filter (isRoot (la ++ r :: lb))).map
            (buildNode (la ++ r :: lb) (f2 + 1)) =
            (lb.filter (isRoot (la ++ r :: lb))).map
              (buildNode (la ++ lb) (la ++ lb).length) := by
          apply List.map_congr_left
          intro y hy
          exact hconv y (List.mem_append_right la (List.mem_of_mem_filter hy)) (f2 + 1) (by omega)
        have hmapC : (childrenOf (la ++ lb) r).map (buildNode (la ++ r :: lb) f2) =
            (childrenOf (la ++ lb) r).map (buildNode (la ++ lb) (la ++ lb).length) := by
          apply List.map_congr_left
          intro z hz
          exact hconv z (List.mem_of_mem_filter hz) f2 hf2
        rw [hmapA, hmapB, hmapC]
        have hdisj : ∀ y ∈ la ++ lb,
            ¬(isRoot (la ++ r :: lb) y = true ∧
              (y.parent_comment_id == some r.id) = true) := by
          rintro y hy ⟨h1, h2⟩
          have hpy : y.parent_comment_id = some r.id := by simpa using h2
          unfold isRoot at h1
          rw [hpy] at h1
          simp at h1
        have hpartsum := sum_filter_or
          (fun y => threadSize (buildNode (la ++ lb) (la ++ lb).length y))
          (isRoot (la ++ r :: lb)) (fun y => y.parent_comment_id == some r.id)
          (la ++ lb) hdisj
        have hfc : (la ++ lb).filter (isRoot (la ++ lb)) =
            (la ++ lb).filter
              (fun y => isRoot (la ++ r :: lb) y || (y.parent_comment_id == some r.id)) :=
          List.filter_congr (fun y _ => isRoot_erase la lb r hnodup y)
        have hIH := ih (la ++ lb) hlen2 hnodup2 hd2 (la ++ lb).length le_rfl
        rw [forestSize_map, hfc, hpartsum] at hIH
        have hsplit : ((la ++ lb).filter (isRoot (la ++ r :: lb))).map
            (fun y => threadSize (buildNode (la ++ lb) (la ++ lb).length y)) =
            (la.filter (isRoot (la ++ r :: lb))).map
              (fun y => threadSize (buildNode (la ++ lb) (la ++ lb).length y)) ++
            (lb.filter (isRoot (la ++ r :: lb))).map
              (fun y => threadSize (buildNode (la ++ lb) (la ++ lb).length y)) := by
          rw [List.filter_append, List.map_append]
        rw [hsplit, List.sum_append] at hIH
        rw [forestSize_map, forestSize_map, forestSize_map]
        have hcf : childrenOf (la ++ lb) r =
            (la ++ lb).filter (fun y => y.parent_comment_id == some r.id) := rfl
        rw [hcf]
        omega

/-- Claim C5, amended (inputs as the store can ship them, with acyclic
parent references): for every flat list of M comments with
pairwise-distinct ids whose parent references admit a rank function
increasing from parent to child (equivalently, no comment is its own
ancestor — in particular none is its own parent), the forest returned
by `getThreadedComments` contains exactly M nodes, each input comment
appearing in exactly one place. -/
theorem thread_completeness (comments : List Comment) (d : Nat → Nat)
    (hnodup : (comments.map Comment.id).Nodup)
    (hd : ∀ y ∈ comments, ∀ x ∈ comments,
      y.parent_comment_id = some x.id → d x.id < d y.id) :
    forestSize (getThreadedComments comments) = comments.length :=
  forest_complete_aux d comments.length comments le_rfl hnodup hd comments.length le_rfl

/-- Witness for the amended C5: a four-comment thread (one root, two
replies, one nested reply) yields a forest of exactly four nodes; the
identity on ids serves as the rank function. -/
theorem thread_completeness_witness :
    forestSize (getThreadedComments
      [⟨1, 0, 0, none, 0⟩, ⟨2, 0, 0, some 1, 1⟩, ⟨3, 0, 0, some 1, 2⟩, ⟨4, 0, 0, some 3, 3⟩]) =
      ([⟨1, 0, 0, none, 0⟩, ⟨2, 0, 0, some 1, 1⟩, ⟨3, 0, 0, some 1, 2⟩,
        (⟨4, 0, 0, some 3, 3⟩ : Comment)] : List Comment).length :=
  thread_completeness
    [⟨1, 0, 0, none, 0⟩, ⟨2, 0, 0, some 1, 1⟩, ⟨3, 0, 0, some 1, 2⟩, ⟨4, 0, 0, some 3, 3⟩]
    (fun n => n) (by decide) (by decide)
